import Mathlib

/-!
# Verification of the dann IVF indexing core

Shallow embedding of the IVF core of the `dann` repository
(`src/src/utils/util.cpp`, `src/src/core/clustering.cpp`,
`src/src/core/ivf_shard.cpp`, `src/src/core/distributed_index_ivf.cpp`)
and proofs about it.

Modelling conventions:
* `float` values are embedded as exact rationals `ℚ`; machine arithmetic on
  them (sum, difference, product, division) is modelled exactly.
* C pointers to float arrays are embedded as functions `ℕ → ℚ`; pointer
  offset `x + i*d` becomes `fun j => x (i*d + j)`.
* `int64_t` document ids are embedded as `ℤ`; sizes and loop indices as `ℕ`.
* The C++ standard-library PRNG machinery (`std::mt19937_64`,
  `std::shuffle`, `std::uniform_int_distribution`, `std::random_device`) is
  implementation-defined; it is embedded as explicit function parameters
  (a deterministic `shuffleF : seed → permutation` for `std::shuffle` after
  `rng(seed)`, and explicit drawn values for the distributions), so that
  which seed the code feeds to the PRNG remains visible in the model.
-/

namespace dann

/-- `FLT_MAX` (`std::numeric_limits<float>::max()`), the exact value
`(2 - 2⁻²³) · 2¹²⁷`, as a rational. -/
def FLT_MAX : ℚ := 340282346638528859811704183484516925440

/-- `L2_distance` from `src/src/utils/util.cpp`: the loop
`for i < d: diff := x[i] - y[i]; dist += diff * diff` starting from `0.0f`. -/
def L2_distance (x y : ℕ → ℚ) (d : ℕ) : ℚ :=
  (List.range d).foldl (fun dist i => dist + (x i - y i) * (x i - y i)) 0

/-- The squared distance of candidate `i` (row `i` of `x`) from `y`:
`L2_distance(x + i*d, y, d)`. -/
def distAt (x y : ℕ → ℚ) (d i : ℕ) : ℚ :=
  L2_distance (fun j => x (i * d + j)) y d

/-- One step of the `find_closest` scan: state is `(min_dis, r)`, candidate
`i` replaces the state exactly when `dis < min_dis` (strict). -/
def fcStep (x y : ℕ → ℚ) (d : ℕ) (s : ℚ × ℕ) (i : ℕ) : ℚ × ℕ :=
  let dis := distAt x y d i
  if dis < s.1 then (dis, i) else s

/-- The state of the `find_closest` scan after examining candidates
`0, …, m-1`, starting from `(FLT_MAX, 0)`. -/
def fcScan (x y : ℕ → ℚ) (d m : ℕ) : ℚ × ℕ :=
  (List.range m).foldl (fcStep x y d) (FLT_MAX, 0)

/-- `find_closest` from `src/src/utils/util.cpp`: scan all `n` candidates
and return the recorded index `r`. -/
def find_closest (x y : ℕ → ℚ) (d n : ℕ) : ℕ :=
  (fcScan x y d n).2

/-- One step of the `d == 4` specialized loop of
`DistributedIndexIVF::find_closest_optimized`
(`src/src/core/distributed_index_ivf.cpp`): the distance is the explicitly
unrolled four-term sum. -/
def fcoStep4 (x y : ℕ → ℚ) (s : ℚ × ℕ) (i : ℕ) : ℚ × ℕ :=
  let dx := x (i * 4 + 0) - y 0
  let dy := x (i * 4 + 1) - y 1
  let dz := x (i * 4 + 2) - y 2
  let dw := x (i * 4 + 3) - y 3
  let dis := dx*dx + dy*dy + dz*dz + dw*dw
  if dis < s.1 then (dis, i) else s

/-- One step of the `d == 8` specialized loop of `find_closest_optimized`:
the distance accumulates two unrolled four-term blocks (`j = 0, 4`). -/
def fcoStep8 (x y : ℕ → ℚ) (s : ℚ × ℕ) (i : ℕ) : ℚ × ℕ :=
  let dis := ([0, 4] : List ℕ).foldl (fun dis j =>
    let dx := x (i * 8 + j) - y j
    let dy := x (i * 8 + (j+1)) - y (j+1)
    let dz := x (i * 8 + (j+2)) - y (j+2)
    let dw := x (i * 8 + (j+3)) - y (j+3)
    dis + (dx*dx + dy*dy + dz*dz + dw*dw)) 0
  if dis < s.1 then (dis, i) else s

/-- `DistributedIndexIVF::find_closest_optimized` from
`src/src/core/distributed_index_ivf.cpp`: specialized unrolled scans for
`d = 4` and `d = 8`, the original `L2_distance` scan otherwise. -/
def find_closest_optimized (x y : ℕ → ℚ) (d n : ℕ) : ℕ :=
  if d = 4 then
    ((List.range n).foldl (fcoStep4 x y) (FLT_MAX, 0)).2
  else if d = 8 then
    ((List.range n).foldl (fcoStep8 x y) (FLT_MAX, 0)).2
  else
    ((List.range n).foldl (fcStep x y d) (FLT_MAX, 0)).2

/-! ## Facts about the scan -/

/-- Unfolding `L2_distance` at `d = 4`. -/
lemma L2_distance_four (x y : ℕ → ℚ) :
    L2_distance x y 4 =
      (x 0 - y 0) * (x 0 - y 0) + (x 1 - y 1) * (x 1 - y 1) +
      (x 2 - y 2) * (x 2 - y 2) + (x 3 - y 3) * (x 3 - y 3) := by
  simp [L2_distance, List.range_succ]

/-- Unfolding `L2_distance` at `d = 8`. -/
lemma L2_distance_eight (x y : ℕ → ℚ) :
    L2_distance x y 8 =
      (x 0 - y 0) * (x 0 - y 0) + (x 1 - y 1) * (x 1 - y 1) +
      (x 2 - y 2) * (x 2 - y 2) + (x 3 - y 3) * (x 3 - y 3) +
      (x 4 - y 4) * (x 4 - y 4) + (x 5 - y 5) * (x 5 - y 5) +
      (x 6 - y 6) * (x 6 - y 6) + (x 7 - y 7) * (x 7 - y 7) := by
  simp [L2_distance, List.range_succ]

/-- The `d = 4` unrolled step computes the same state transition as the
generic step. -/
lemma fcoStep4_eq_fcStep (x y : ℕ → ℚ) (s : ℚ × ℕ) (i : ℕ) :
    fcoStep4 x y s i = fcStep x y 4 s i := by
  simp only [fcoStep4, fcStep, distAt, L2_distance_four]

/-- The `d = 8` unrolled step computes the same state transition as the
generic step. -/
lemma fcoStep8_eq_fcStep (x y : ℕ → ℚ) (s : ℚ × ℕ) (i : ℕ) :
    fcoStep8 x y s i = fcStep x y 8 s i := by
  simp only [fcoStep8, fcStep, distAt, L2_distance_eight, List.foldl]
  ring_nf

/-- Appending one more candidate to the scan. -/
lemma fcScan_succ (x y : ℕ → ℚ) (d m : ℕ) :
    fcScan x y d (m + 1) = fcStep x y d (fcScan x y d m) m := by
  unfold fcScan
  rw [List.range_succ, List.foldl_append, List.foldl_cons, List.foldl_nil]

/-- Invariant of the `find_closest` scan: after examining candidates
`0, …, m-1`, either no candidate had distance below `FLT_MAX` and the state
is still `(FLT_MAX, 0)`, or the state records the least index attaining the
minimum distance among the examined candidates. -/
lemma fcScan_invariant (x y : ℕ → ℚ) (d m : ℕ) :
    (fcScan x y d m = (FLT_MAX, 0) ∧ ∀ j < m, FLT_MAX ≤ distAt x y d j) ∨
    ((fcScan x y d m).2 < m ∧
     (fcScan x y d m).1 = distAt x y d (fcScan x y d m).2 ∧
     (fcScan x y d m).1 < FLT_MAX ∧
     (∀ j < m, (fcScan x y d m).1 ≤ distAt x y d j) ∧
     (∀ j < (fcScan x y d m).2, (fcScan x y d m).1 < distAt x y d j)) := by
  induction m with
  | zero =>
    left
    exact ⟨rfl, fun j hj => absurd hj (Nat.not_lt_zero j)⟩
  | succ m ih =>
    rw [fcScan_succ]
    rcases ih with ⟨heq, hall⟩ | ⟨hlt, hmin, hflt, hle, hlow⟩
    · rw [heq]
      by_cases hm : distAt x y d m < FLT_MAX
      · right
        unfold fcStep
        simp only [if_pos hm]
        refine ⟨Nat.lt_succ_self m, trivial, hm, fun j hj => ?_, fun j hj => ?_⟩
        · rcases Nat.lt_succ_iff_lt_or_eq.mp hj with hj' | hj'
          · exact le_of_lt (lt_of_lt_of_le hm (hall j hj'))
          · subst hj'; exact le_refl _
        · exact lt_of_lt_of_le hm (hall j hj)
      · left
        unfold fcStep
        simp only [if_neg hm]
        refine ⟨trivial, fun j hj => ?_⟩
        rcases Nat.lt_succ_iff_lt_or_eq.mp hj with hj' | hj'
        · exact hall j hj'
        · subst hj'; exact not_lt.mp hm
    · by_cases hm : distAt x y d m < (fcScan x y d m).1
      · right
        unfold fcStep
        simp only [if_pos hm]
        refine ⟨Nat.lt_succ_self m, trivial, lt_trans hm hflt, fun j hj => ?_,
          fun j hj => ?_⟩
        · rcases Nat.lt_succ_iff_lt_or_eq.mp hj with hj' | hj'
          · exact le_of_lt (lt_of_lt_of_le hm (hle j hj'))
          · subst hj'; exact le_refl _
        · exact lt_of_lt_of_le hm (hle j hj)
      · right
        unfold fcStep
        simp only [if_neg hm]
        refine ⟨Nat.lt_succ_of_lt hlt, hmin, hflt, fun j hj => ?_, hlow⟩
        rcases Nat.lt_succ_iff_lt_or_eq.mp hj with hj' | hj'
        · exact hle j hj'
        · subst hj'; exact not_lt.mp hm

/-- **C7.** For every `n ≥ 1`, `d ≥ 1` and inputs `x`, `y` (provided some
candidate's distance is below the `FLT_MAX` sentinel the scan starts from,
which is always the case for distances representable in `float`),
`find_closest(x, y, d, n)` returns an index in `[0, n)` attaining the
minimum of `L2_distance(x + i*d, y, d)` over `i ∈ [0, n)`, and among the
indices attaining that minimum the lowest one wins (strict `<` during the
scan). -/
theorem find_closest_is_argmin (x y : ℕ → ℚ) (d n : ℕ)
    (hfin : ∃ i, i < n ∧ distAt x y d i < FLT_MAX) :
    find_closest x y d n < n ∧
    (∀ j < n, distAt x y d (find_closest x y d n) ≤ distAt x y d j) ∧
    (∀ j < n, distAt x y d j = distAt x y d (find_closest x y d n) →
      find_closest x y d n ≤ j) := by
  obtain ⟨i, hi, hdi⟩ := hfin
  rcases fcScan_invariant x y d n with ⟨heq, hall⟩ | ⟨hlt, hmin, hflt, hle, hlow⟩
  · exact absurd hdi (not_lt.mpr (hall i hi))
  · unfold find_closest
    refine ⟨hlt, fun j hj => ?_, fun j hj hje => ?_⟩
    · rw [← hmin]; exact hle j hj
    · by_contra hc
      push_neg at hc
      have hstrict := hlow j hc
      rw [hje, ← hmin] at hstrict
      exact lt_irrefl _ hstrict

/-- Witness for C7: on the two candidates `[5]` and `[0]` (`d = 1`) with
query `[0]`, the scan returns index `1`, the unique minimizer. -/
theorem find_closest_is_argmin_witness :
    (∃ i, i < 2 ∧
      distAt (fun j => if j = 0 then 5 else 0) (fun _ => 0) 1 i < FLT_MAX) ∧
    (find_closest (fun j => if j = 0 then 5 else 0) (fun _ => 0) 1 2 < 2 ∧
     (∀ j < 2, distAt (fun j => if j = 0 then 5 else 0) (fun _ => 0) 1
        (find_closest (fun j => if j = 0 then 5 else 0) (fun _ => 0) 1 2) ≤
        distAt (fun j => if j = 0 then 5 else 0) (fun _ => 0) 1 j) ∧
     (∀ j < 2, distAt (fun j => if j = 0 then 5 else 0) (fun _ => 0) 1 j =
        distAt (fun j => if j = 0 then 5 else 0) (fun _ => 0) 1
          (find_closest (fun j => if j = 0 then 5 else 0) (fun _ => 0) 1 2) →
        find_closest (fun j => if j = 0 then 5 else 0) (fun _ => 0) 1 2 ≤ j)) :=
  ⟨⟨1, by norm_num, by norm_num [distAt, L2_distance, FLT_MAX]⟩,
   find_closest_is_argmin _ _ 1 2
     ⟨1, by norm_num, by norm_num [distAt, L2_distance, FLT_MAX]⟩⟩

/-- The optimized scan agrees with the naive scan on every input. -/
lemma fco_eq_fc (x y : ℕ → ℚ) (d n : ℕ) :
    find_closest_optimized x y d n = find_closest x y d n := by
  unfold find_closest_optimized find_closest fcScan
  by_cases h4 : d = 4
  · subst h4
    rw [if_pos rfl]
    congr 1
    exact List.foldl_ext _ _ _ (fun s i _ => fcoStep4_eq_fcStep x y s i)
  · by_cases h8 : d = 8
    · subst h8
      rw [if_neg (by norm_num : ¬ (8:ℕ) = 4), if_pos rfl]
      congr 1
      exact List.foldl_ext _ _ _ (fun s i _ => fcoStep8_eq_fcStep x y s i)
    · rw [if_neg h4, if_neg h8]

/-- **C9.** For every `d`, `n` and inputs `x`, `y`,
`find_closest_optimized(x, y, d, n)` returns the same index as
`find_closest(x, y, d, n)`: the specialized `d = 4` and `d = 8` paths
compute exactly the naive sum (in the exact-rational model of `float`
arithmetic) and never change the argmin result. -/
theorem find_closest_optimized_eq_find_closest (x y : ℕ → ℚ) (d n : ℕ) :
    find_closest_optimized x y d n = find_closest x y d n :=
  fco_eq_fc x y d n

/-- The recorded index of the scan is always within `[0, n)` when
`n ≥ 1`. -/
lemma find_closest_lt (x y : ℕ → ℚ) (d n : ℕ) (hn : 0 < n) :
    find_closest x y d n < n := by
  rcases fcScan_invariant x y d n with ⟨heq, _⟩ | ⟨hlt, _⟩
  · unfold find_closest
    rw [heq]
    exact hn
  · exact hlt

lemma find_closest_optimized_lt (x y : ℕ → ℚ) (d n : ℕ) (hn : 0 < n) :
    find_closest_optimized x y d n < n := by
  rw [fco_eq_fc]
  exact find_closest_lt x y d n hn

/-- **C10.** `find_closest` is total at the `n == 0` boundary: for every
`x`, `y` and `d`, `find_closest(x, y, d, 0)` returns `0` (the loop body
never runs, no candidate vector is read, and the initial `r = 0` is
returned). -/
theorem find_closest_zero_candidates (x y : ℕ → ℚ) (d : ℕ) :
    find_closest x y d 0 = 0 := rfl

/-! ## Inverted lists and shard postings (`src/src/core/ivf_shard.cpp`) -/

/-- `InvertedList` from `src/include/dann/ivf_shard.h`: parallel arrays of
document ids (`int64_t`) and flattened vector components (`float`). -/
structure InvertedList where
  vector_ids : List ℤ
  vectors : List ℚ
deriving DecidableEq

/-- The in-place extension `it->second.… .insert(…)` performed by
`IndexIVFShard::add_posting` on the entry whose key equals `centroid`
(an `unordered_map` holds at most one such entry; here the first match is
extended).  Note the source appends `posting.vector_ids` to **both**
arrays: the float buffer receives the ids converted to `float`, not the
vector components. -/
def extend_entry (centroid : ℤ) (posting : InvertedList) :
    List (ℤ × InvertedList) → List (ℤ × InvertedList)
  | [] => []
  | kv :: rest =>
    if kv.1 = centroid then
      (kv.1, ⟨kv.2.vector_ids ++ posting.vector_ids,
              kv.2.vectors ++ posting.vector_ids.map (fun z => (z : ℚ))⟩) :: rest
    else kv :: extend_entry centroid posting rest

/-- `IndexIVFShard::add_posting` from `src/src/core/ivf_shard.cpp`: if
`centroid` is absent a fresh empty `InvertedList` is inserted first, then
the (now present) entry is extended with the supplied posting. -/
def add_posting (postings : List (ℤ × InvertedList)) (centroid : ℤ)
    (posting : InvertedList) : List (ℤ × InvertedList) :=
  if (postings.lookup centroid).isSome then
    extend_entry centroid posting postings
  else
    extend_entry centroid posting (postings ++ [(centroid, ⟨[], []⟩)])

/-- **C1.** The claim fails on the code: `add_posting` appends
`posting.vector_ids` into the float `vectors` buffer instead of
`posting.vectors`.  Adding to an empty shard a well-formed list with one id
and one `d = 2` vector (`vectors.len() = 1 · 2`) stores a posting with
`vectors = [7]` (the id cast to float): `vectors.len() = 1 ≠ 1 · 2 =
vector_ids.len() · d`, and the vector payload `[1, 2]` is lost. -/
theorem add_posting_breaks_length_invariant :
    add_posting [] 0 ⟨[7], [1, 2]⟩ = [(0, ⟨[7], [(7:ℚ)]⟩)] ∧
    ∀ kv ∈ add_posting [] 0 ⟨[7], [1, 2]⟩,
      kv.2.vectors.length ≠ kv.2.vector_ids.length * 2 := by
  decide

/-! ## The distributed search entry point
(`src/src/core/distributed_index_ivf.cpp`) -/

/-- `InternalSearchResult` from `src/include/dann/types.h`. -/
structure InternalSearchResult where
  id : ℤ
  distance : ℚ
  vector : List ℚ

/-- `DistributedIndexIVF::search` from
`src/src/core/distributed_index_ivf.cpp` (lines 172–178): the body clamps
`nprobe` to `global_centroid_ids_.size()` and then ends; control falls off
the end of the non-void function without computing or returning any hits.
The absent hit list is modelled as `none`. -/
def DistributedIndexIVF.search (num_centroid_ids : ℕ) (query : List ℚ)
    (k nprobe : ℕ) : Option (List InternalSearchResult) :=
  let nprobe := if num_centroid_ids < nprobe then num_centroid_ids else nprobe
  none

/-- **C2.** On a populated index (two centroids, as in the spec's tiny
`d = 2`, `k = 2` scenario) with query `[0, 0]`, `k = 2 > 0` and
`nprobe = 1 > 0`, `search` produces no hit list at all: the implementation
is an empty stub, so the claimed postcondition (result length ≤ k with
non-decreasing distances) never materializes. -/
theorem search_stub_returns_no_hits :
    DistributedIndexIVF.search 2 [0, 0] 2 1 = none := rfl

/-! ## Clustering (`src/src/core/clustering.cpp`) -/

/-- A write into a float array modelled as a function (C arrays are maps
from indices to values; `upd a p v` is `a[p] = v`). -/
def upd (a : ℕ → ℚ) (p : ℕ) (v : ℚ) : ℕ → ℚ :=
  fun q => if q = p then v else a q

/-- A write into an integer array modelled as a function. -/
def updN (a : ℕ → ℕ) (p v : ℕ) : ℕ → ℕ :=
  fun q => if q = p then v else a q

/-- `ClusteringParameters` from `src/include/dann/clustering.h`, plus the
`nredo` restart count that `Clustering::train` reads (the source uses
`nredo` without declaring it in the header; the spec documents it as the
number of independent restarts). `int_centroids` is never read by the core
and is omitted. -/
structure ClusteringParameters where
  niter : ℕ
  min_points_per_centroids : ℕ
  max_points_per_centroids : ℕ
  max_sample_ratio : ℚ
  seed : ℕ
  nredo : ℕ

/-- The default parameter values of `ClusteringParameters`
(`niter = 25`, `min = 39`, `max = 256`, `max_sample_ratio = 0.22`,
`seed = 1234`); `nredo` defaults to `1` restart. -/
def defaultClusteringParameters : ClusteringParameters :=
  ⟨25, 39, 256, 22/100, 1234, 1⟩

/-- The assignment scan of `Clustering::train` (clustering.cpp lines
48-60) for vector `i`: scan centroids `j < k` with
`L2_distance(&vectors[i*d], &centroids[j*d], d)`, strict `<`, starting
from `(FLT_MAX, 0)`. -/
def assign_of (vectors centroids : ℕ → ℚ) (d k : ℕ) (i : ℕ) : ℕ :=
  ((List.range k).foldl (fun (s : ℚ × ℕ) j =>
    let dist := L2_distance (fun t => vectors (i * d + t))
      (fun t => centroids (j * d + t)) d
    if dist < s.1 then (dist, j) else s) (FLT_MAX, 0)).2

/-- One step of the accumulation loop of the update step (clustering.cpp
lines 68-73): `counts[assign[i]] += 1` and, for each coordinate `j < d`,
`centroids[d*assign[i] + j] += vectors[d*i + j]`. -/
def accumulate_step (vectors : ℕ → ℚ) (d : ℕ) (assign : ℕ → ℕ)
    (st : (ℕ → ℚ) × (ℕ → ℕ)) (i : ℕ) : (ℕ → ℚ) × (ℕ → ℕ) :=
  let counts := updN st.2 (assign i) (st.2 (assign i) + 1)
  let cents := (List.range d).foldl
    (fun c j => upd c (d * assign i + j) (c (d * assign i + j) + vectors (d * i + j)))
    st.1
  (cents, counts)

/-- The update step of `Clustering::train` (clustering.cpp lines 62-81):
`std::fill` zeroes the whole centroid buffer, the accumulation loop sums
each assigned vector into its centroid's slot and counts members, and the
final loop divides each centroid with a nonzero count by its count
(`continue` skips centroids with zero count, which therefore stay at the
zero fill). -/
def update_step (vectors : ℕ → ℚ) (assign : ℕ → ℕ) (n d k : ℕ) : ℕ → ℚ :=
  let st := (List.range n).foldl (accumulate_step vectors d assign)
    (fun _ => 0, fun _ => 0)
  (List.range k).foldl (fun c i =>
    if st.2 i = 0 then c
    else (List.range d).foldl
      (fun c j => upd c (i * d + j) (c (i * d + j) / (st.2 i : ℚ))) c)
    st.1

/-- One refinement iteration of `Clustering::train`: assignment (lines
48-60) followed by the update step (lines 62-81). -/
def lloyd_iteration (vectors : ℕ → ℚ) (n d k : ℕ) (centroids : ℕ → ℚ) :
    ℕ → ℚ :=
  update_step vectors (assign_of vectors centroids d k) n d k

/-- The convergence measure of `Clustering::train` (lines 83-92):
`max_change = max_i L2_distance(&prev[i*d], &centroids[i*d], d)`. -/
def max_change (prev next : ℕ → ℚ) (d k : ℕ) : ℚ :=
  (List.range k).foldl (fun m i =>
    max m (L2_distance (fun t => prev (i * d + t)) (fun t => next (i * d + t)) d)) 0

/-- The `niter`-bounded refinement loop of `Clustering::train` (lines
45-93): iterate, and after any iteration with `t > 0` stop early when
`max_change < 1e-6` (the threshold `1e-6f`, modelled as the exact
`1/1000000`). -/
def lloyd_loop (vectors : ℕ → ℚ) (n d k : ℕ) :
    ℕ → ℕ → (ℕ → ℚ) → (ℕ → ℚ)
  | 0, _, c => c
  | fuel + 1, t, c =>
    let c' := lloyd_iteration vectors n d k c
    if 0 < t ∧ max_change c c' d k < 1 / 1000000 then c'
    else lloyd_loop vectors n d k fuel (t + 1) c'

/-- The initial centroids of one restart (clustering.cpp lines 33-39):
`centroids.resize(d*k)` (zeros on first growth) and then, for `i < k`,
copy the vector at shuffled index `local_indices[i]` into slot `i`. -/
def init_centroids (vectors : ℕ → ℚ) (indices : List ℕ) (d k : ℕ) : ℕ → ℚ :=
  (List.range k).foldl (fun c i =>
    (List.range d).foldl
      (fun c t => upd c (i * d + t) (vectors (indices.getD i 0 * d + t))) c)
    (fun _ => 0)

/-- One restart's Lloyd run: initialization from the (already shuffled)
index list, then the bounded refinement loop starting at `t = 0`. -/
def lloyd_run (vectors : ℕ → ℚ) (indices : List ℕ) (n d k niter : ℕ) :
    ℕ → ℚ :=
  lloyd_loop vectors n d k niter 0 (init_centroids vectors indices d k)

/-- One iteration of the `nredo` restart loop of `Clustering::train`
(lines 30-94).  The source constructs `std::mt19937_64 rng(seed)` — the
**plain** seed, identically at every restart — and `std::shuffle`s
`local_indices` **in place** with it; `shuffleF s l` is the deterministic
permutation `std::shuffle` applies to `l` under a generator freshly seeded
with `s`.  The restart index `redo` is not used. -/
def train_redo_step (vectors : ℕ → ℚ) (n d k : ℕ)
    (params : ClusteringParameters) (shuffleF : ℕ → List ℕ → List ℕ)
    (st : List ℕ × (ℕ → ℚ)) (redo : ℕ) : List ℕ × (ℕ → ℚ) :=
  let indices := shuffleF params.seed st.1
  (indices, lloyd_run vectors indices n d k params.niter)

/-- `Clustering::train` (clustering.cpp lines 25-95): `local_indices`
starts as `[0, n)`, and each of the `nredo` restarts reshuffles it in
place and overwrites `centroids` with its own Lloyd run; the last
restart's result is kept. -/
def Clustering.train (vectors : ℕ → ℚ) (n d k : ℕ)
    (params : ClusteringParameters) (shuffleF : ℕ → List ℕ → List ℕ) :
    ℕ → ℚ :=
  ((List.range params.nredo).foldl
    (train_redo_step vectors n d k params shuffleF)
    (List.range n, fun _ => 0)).2

/-- Modelled from the spec (for the C4 comparison): the restart seeding
the spec describes — restart `redo` is "seeded deterministically from
`seed + redo_index`" — with everything else as in the source. -/
def Clustering.train_spec_seeded (vectors : ℕ → ℚ) (n d k : ℕ)
    (params : ClusteringParameters) (shuffleF : ℕ → List ℕ → List ℕ) :
    ℕ → ℚ :=
  ((List.range params.nredo).foldl
    (fun st redo =>
      let indices := shuffleF (params.seed + redo) st.1
      (indices, lloyd_run vectors indices n d k params.niter))
    (List.range n, fun _ => 0)).2

/-- `Clustering::get_sample_count` (clustering.cpp lines 98-118), with the
single `uniform_int_distribution` draw from the `mt19937_64` freshly
seeded with `seed` passed in as `u` (the C++ standard guarantees the draw
lies in `[min(lo,hi), max(lo,hi)]`): `result = min(n, k·u,
⌊max_sample_ratio · n⌋)` then `result = max(result, k)`. -/
def get_sample_count (k n : ℕ) (max_sample_ratio : ℚ) (u : ℕ) : ℕ :=
  let target := k * u
  let ratio_cap := (max_sample_ratio * (n : ℚ)).floor.toNat
  let result := min n (min target ratio_cap)
  max result k

/-- **C8.** For `k ≤ n` (the regime `train` guarantees, `n ≥ k`) and any
value `u` of the single per-call uniform draw from
`[min(min_points, max_points), max(min_points, max_points)]`,
`get_sample_count` returns
`clamp(min(n, k·u, ⌊max_sample_ratio·n⌋), lower = k, upper = n)`. -/
theorem get_sample_count_is_clamp (k n u min_pts max_pts : ℕ) (ratio : ℚ)
    (hu1 : min min_pts max_pts ≤ u) (hu2 : u ≤ max min_pts max_pts)
    (hkn : k ≤ n) :
    get_sample_count k n ratio u =
      min (max (min n (min (k * u) ((ratio * (n : ℚ)).floor.toNat))) k) n := by
  have hdef : get_sample_count k n ratio u =
      max (min n (min (k * u) ((ratio * (n : ℚ)).floor.toNat))) k := rfl
  rw [hdef]
  generalize k * u = target
  generalize (ratio * (n : ℚ)).floor.toNat = cap
  omega

/-- Witness for C8: `k = 2`, `n = 10`, `u = 39` (the draw, within the
default bounds `[39, 256]`), ratio `0.22`: both sides evaluate to `2`. -/
theorem get_sample_count_is_clamp_witness :
    (min 39 256 ≤ 39 ∧ 39 ≤ max 39 256 ∧ 2 ≤ 10) ∧
    get_sample_count 2 10 (22/100) 39 =
      min (max (min 10 (min (2 * 39) (((22:ℚ)/100 * (10 : ℚ)).floor.toNat))) 2) 10 :=
  ⟨⟨by decide, by decide, by decide⟩,
   get_sample_count_is_clamp 2 10 39 39 256 (22/100)
     (by decide) (by decide) (by decide)⟩

/-- The index list carried through the restart loop after `m` restarts is
the `m`-fold in-place reshuffle (seeded with the plain `seed` every time)
of the initial `[0, n)`. -/
lemma train_fold_indices (vectors : ℕ → ℚ) (n d k : ℕ)
    (params : ClusteringParameters) (shuffleF : ℕ → List ℕ → List ℕ)
    (m : ℕ) :
    ((List.range m).foldl (train_redo_step vectors n d k params shuffleF)
      (List.range n, fun _ => 0)).1 =
      (shuffleF params.seed)^[m] (List.range n) := by
  induction m with
  | zero => rfl
  | succ m ih =>
    rw [List.range_succ, List.foldl_append, List.foldl_cons, List.foldl_nil,
      Function.iterate_succ_apply']
    show shuffleF params.seed _ = _
    rw [ih]

/-- **C4 (amended).** `Clustering::train` reseeds its PRNG from the plain
`seed` at every restart — not from `seed + redo_index` — and shuffles the
index array in place, so with `nredo ≥ 1` its result is exactly the last
restart's Lloyd run on the `nredo`-fold reshuffle of `[0, n)`; given the
training sample, the parameters and the shuffle procedure, the result is
deterministic. -/
theorem train_reseeds_every_restart_from_seed (vectors : ℕ → ℚ) (n d k : ℕ)
    (params : ClusteringParameters) (shuffleF : ℕ → List ℕ → List ℕ)
    (h : 0 < params.nredo) :
    Clustering.train vectors n d k params shuffleF =
      lloyd_run vectors ((shuffleF params.seed)^[params.nredo] (List.range n))
        n d k params.niter := by
  obtain ⟨m, hm⟩ : ∃ m, params.nredo = m + 1 := ⟨params.nredo - 1, by omega⟩
  unfold Clustering.train
  rw [hm, List.range_succ, List.foldl_append, List.foldl_cons, List.foldl_nil]
  show lloyd_run vectors (shuffleF params.seed _) n d k params.niter = _
  rw [train_fold_indices, Function.iterate_succ_apply']

/-- Witness for the amended C4 theorem at a concrete input. -/
theorem train_reseeds_every_restart_from_seed_witness :
    0 < (⟨0, 39, 256, 22/100, 1234, 2⟩ : ClusteringParameters).nredo ∧
    Clustering.train (fun _ => 0) 1 1 1 ⟨0, 39, 256, 22/100, 1234, 2⟩
        (fun _ l => l) =
      lloyd_run (fun _ => 0)
        ((fun l => (fun _ l => l : ℕ → List ℕ → List ℕ) 1234 l)^[2]
          (List.range 1)) 1 1 1 0 :=
  ⟨by decide,
   train_reseeds_every_restart_from_seed (fun _ => 0) 1 1 1
     ⟨0, 39, 256, 22/100, 1234, 2⟩ (fun _ l => l) (by decide)⟩

/-- **C4 (counterexample).** The claim's seeding is wrong on the code:
with `niter = 0`, `nredo = 2`, `seed = 1234`, two vectors `[1]`, `[2]`
(`d = 1`, `k = 1`) and the shuffle procedure that fixes the list under
seed `1234` and reverses it under any other seed, the source's restarts
(both reseeded from the plain `seed`) leave centroid 0 at `1`, while
restarts seeded from `seed + redo_index` (as the claim states) would
produce `2`. -/
theorem train_seed_plus_redo_counterexample :
    Clustering.train (fun p => if p = 0 then 1 else 2) 2 1 1
        ⟨0, 39, 256, 22/100, 1234, 2⟩
        (fun s l => if s = 1234 then l else l.reverse) 0 = 1 ∧
    Clustering.train_spec_seeded (fun p => if p = 0 then 1 else 2) 2 1 1
        ⟨0, 39, 256, 22/100, 1234, 2⟩
        (fun s l => if s = 1234 then l else l.reverse) 0 = 2 := by
  constructor <;> rfl

/-! ## Characterizing the update step (claim C3) -/

/-- Number of the first `n` vectors assigned to centroid `j`. -/
def memberCount (assign : ℕ → ℕ) (n j : ℕ) : ℕ :=
  ((List.range n).filter (fun i => assign i = j)).length

/-- Sum of coordinate `t` over the first `n` vectors assigned to
centroid `j`. -/
def memberSum (vectors : ℕ → ℚ) (assign : ℕ → ℕ) (d n j t : ℕ) : ℚ :=
  (((List.range n).filter (fun i => assign i = j)).map
    (fun i => vectors (d * i + t))).sum

lemma upd_apply (a : ℕ → ℚ) (p : ℕ) (v : ℚ) (q : ℕ) :
    upd a p v q = if q = p then v else a q := rfl

lemma updN_apply (a : ℕ → ℕ) (p v q : ℕ) :
    updN a p v q = if q = p then v else a q := rfl

lemma memberCount_succ (assign : ℕ → ℕ) (m j : ℕ) :
    memberCount assign (m + 1) j =
      memberCount assign m j + if assign m = j then 1 else 0 := by
  unfold memberCount
  rw [List.range_succ, List.filter_append, List.length_append]
  by_cases h : assign m = j <;> simp [h]

lemma memberSum_succ (vectors : ℕ → ℚ) (assign : ℕ → ℕ) (d m j t : ℕ) :
    memberSum vectors assign d (m + 1) j t =
      memberSum vectors assign d m j t +
        if assign m = j then vectors (d * m + t) else 0 := by
  unfold memberSum
  rw [List.range_succ, List.filter_append, List.map_append, List.sum_append]
  by_cases h : assign m = j <;> simp [h]

/-- A centroid-row window `[d*a, d*a + d)` contains position `d*j + t`
(with `t < d`) exactly when `j = a`. -/
lemma row_window_iff (a j t d : ℕ) (ht : t < d) :
    (d * a ≤ d * j + t ∧ d * j + t < d * a + d) ↔ j = a := by
  constructor
  · rintro ⟨h1, h2⟩
    by_contra hne
    rcases Nat.lt_or_ge j a with h | h
    · have hmul : d * (j + 1) ≤ d * a := Nat.mul_le_mul_left d h
      rw [Nat.mul_succ] at hmul
      omega
    · have h' : a + 1 ≤ j := by omega
      have hmul : d * (a + 1) ≤ d * j := Nat.mul_le_mul_left d h'
      rw [Nat.mul_succ] at hmul
      omega
  · rintro rfl
    omega

/-- Effect of the accumulation inner loop (`centroids[base + j] +=
vectors[irow + j]` for `j < d`) on an arbitrary position `p`. -/
lemma accum_inner_apply (vectors : ℕ → ℚ) (irow base : ℕ) :
    ∀ (d : ℕ) (c : ℕ → ℚ) (p : ℕ),
    ((List.range d).foldl
      (fun c j => upd c (base + j) (c (base + j) + vectors (irow + j))) c) p =
      if base ≤ p ∧ p < base + d then c p + vectors (irow + (p - base))
      else c p := by
  intro d
  induction d with
  | zero =>
    intro c p
    rw [if_neg (by omega)]
    rfl
  | succ d ih =>
    intro c p
    rw [List.range_succ, List.foldl_append, List.foldl_cons, List.foldl_nil]
    rw [upd_apply]
    by_cases hp : p = base + d
    · rw [if_pos hp, ih, if_neg (by omega), if_pos (by omega), hp]
      simp
    · rw [if_neg hp, ih]
      by_cases hin : base ≤ p ∧ p < base + d
      · rw [if_pos hin, if_pos (by omega)]
      · rw [if_neg hin, if_neg (by omega)]

/-- Effect of the division inner loop (`centroids[base + j] /= q` for
`j < d`) on an arbitrary position `p`. -/
lemma div_inner_apply (q : ℚ) (base : ℕ) :
    ∀ (d : ℕ) (c : ℕ → ℚ) (p : ℕ),
    ((List.range d).foldl
      (fun c j => upd c (base + j) (c (base + j) / q)) c) p =
      if base ≤ p ∧ p < base + d then c p / q else c p := by
  intro d
  induction d with
  | zero =>
    intro c p
    rw [if_neg (by omega)]
    rfl
  | succ d ih =>
    intro c p
    rw [List.range_succ, List.foldl_append, List.foldl_cons, List.foldl_nil]
    rw [upd_apply]
    by_cases hp : p = base + d
    · rw [if_pos hp, ih, if_neg (by omega), if_pos (by omega), hp]
    · rw [if_neg hp, ih]
      by_cases hin : base ≤ p ∧ p < base + d
      · rw [if_pos hin, if_pos (by omega)]
      · rw [if_neg hin, if_neg (by omega)]

lemma accumulate_step_fst (vectors : ℕ → ℚ) (d : ℕ) (assign : ℕ → ℕ)
    (st : (ℕ → ℚ) × (ℕ → ℕ)) (i : ℕ) :
    (accumulate_step vectors d assign st i).1 =
      (List.range d).foldl
        (fun c j => upd c (d * assign i + j)
          (c (d * assign i + j) + vectors (d * i + j))) st.1 := rfl

lemma accumulate_step_snd (vectors : ℕ → ℚ) (d : ℕ) (assign : ℕ → ℕ)
    (st : (ℕ → ℚ) × (ℕ → ℕ)) (i : ℕ) :
    (accumulate_step vectors d assign st i).2 =
      updN st.2 (assign i) (st.2 (assign i) + 1) := rfl

/-- After the accumulation loop has processed the first `m` vectors, the
counts array holds the member counts and position `d*j + t` (`t < d`) of
the centroid buffer holds the member sum of coordinate `t` for
centroid `j`. -/
lemma accumulate_spec (vectors : ℕ → ℚ) (assign : ℕ → ℕ) (d : ℕ) (m : ℕ) :
    (∀ j, ((List.range m).foldl (accumulate_step vectors d assign)
        (fun _ => 0, fun _ => 0)).2 j = memberCount assign m j) ∧
    (∀ j t, t < d →
      ((List.range m).foldl (accumulate_step vectors d assign)
        (fun _ => 0, fun _ => 0)).1 (d * j + t) =
        memberSum vectors assign d m j t) := by
  induction m with
  | zero =>
    constructor
    · intro j
      simp [memberCount]
    · intro j t ht
      simp [memberSum]
  | succ m ih =>
    obtain ⟨ihc, ihs⟩ := ih
    constructor
    · intro j
      rw [List.range_succ, List.foldl_append, List.foldl_cons, List.foldl_nil,
        accumulate_step_snd, updN_apply, memberCount_succ]
      by_cases h : j = assign m
      · rw [if_pos h, if_pos h.symm]
        subst h
        rw [ihc]
      · rw [if_neg h, if_neg (fun hh => h hh.symm), ihc, add_zero]
    · intro j t ht
      rw [List.range_succ, List.foldl_append, List.foldl_cons, List.foldl_nil,
        accumulate_step_fst, accum_inner_apply, memberSum_succ]
      by_cases h : j = assign m
      · rw [if_pos ((row_window_iff (assign m) j t d ht).mpr h), if_pos h.symm,
          ihs j t ht]
        subst h
        rw [Nat.add_sub_cancel_left]
      · rw [if_neg (fun hc => h ((row_window_iff (assign m) j t d ht).mp hc)),
          if_neg (fun hh => h hh.symm), ihs j t ht, add_zero]

/-- Effect of the division loop (clustering.cpp lines 74-81) on position
`j*d + t` (`t < d`): divide by `counts j` when `j` was scanned and its
count is nonzero, otherwise leave the position unchanged. -/
lemma divide_fold_apply (counts : ℕ → ℕ) (d : ℕ) :
    ∀ (k : ℕ) (c : ℕ → ℚ) (j t : ℕ), t < d →
    ((List.range k).foldl (fun c i =>
        if counts i = 0 then c
        else (List.range d).foldl
          (fun c j => upd c (i * d + j) (c (i * d + j) / (counts i : ℚ))) c) c)
      (j * d + t) =
      (if j < k ∧ counts j ≠ 0 then c (j * d + t) / (counts j : ℚ)
       else c (j * d + t)) := by
  intro k
  induction k with
  | zero =>
    intro c j t ht
    rw [if_neg (by omega)]
    rfl
  | succ k ih =>
    intro c j t ht
    simp only [List.range_succ, List.foldl_append, List.foldl_cons,
      List.foldl_nil]
    by_cases hz : counts k = 0
    · rw [if_pos hz, ih c j t ht]
      by_cases hj : j < k
      · by_cases hcz : counts j = 0
        · rw [if_neg (by omega), if_neg (by omega)]
        · rw [if_pos ⟨hj, hcz⟩, if_pos ⟨by omega, hcz⟩]
      · have hjk : ¬ (j < k ∧ counts j ≠ 0) := fun hc => hj hc.1
        rw [if_neg hjk]
        by_cases hje : j = k
        · subst hje
          rw [if_neg (fun hc : j < j + 1 ∧ counts j ≠ 0 => hc.2 hz)]
        · rw [if_neg (fun hc : j < k + 1 ∧ counts j ≠ 0 =>
            absurd hc.1 (by omega))]
    · rw [if_neg hz, div_inner_apply]
      by_cases hje : j = k
      · subst hje
        have hcond : j * d ≤ j * d + t ∧ j * d + t < j * d + d :=
          ⟨by omega, by omega⟩
        rw [if_pos hcond, ih c j t ht,
          if_neg (fun hc : j < j ∧ counts j ≠ 0 => absurd hc.1 (lt_irrefl j)),
          if_pos (⟨Nat.lt_succ_self j, hz⟩ : j < j + 1 ∧ counts j ≠ 0)]
      · have hcond : ¬ (k * d ≤ j * d + t ∧ j * d + t < k * d + d) := by
          intro hc
          have hc' : d * k ≤ d * j + t ∧ d * j + t < d * k + d := by
            rw [Nat.mul_comm d k, Nat.mul_comm d j]
            exact hc
          exact hje ((row_window_iff k j t d ht).mp hc')
        rw [if_neg hcond, ih c j t ht]
        by_cases hj : j < k ∧ counts j ≠ 0
        · rw [if_pos hj, if_pos ⟨by omega, hj.2⟩]
        · rw [if_neg hj]
          have : ¬ (j < k + 1 ∧ counts j ≠ 0) := by
            intro hc
            exact hj ⟨by omega, hc.2⟩
          rw [if_neg this]

lemma memberSum_of_count_zero (vectors : ℕ → ℚ) (assign : ℕ → ℕ)
    (d n j t : ℕ) (h : memberCount assign n j = 0) :
    memberSum vectors assign d n j t = 0 := by
  unfold memberCount at h
  unfold memberSum
  rw [List.length_eq_zero] at h
  rw [h]
  rfl

/-- Pointwise characterization of the update step: coordinate `t` of
centroid `j` becomes the member mean when the member count is nonzero and
the zero fill otherwise. -/
lemma update_step_apply (vectors : ℕ → ℚ) (assign : ℕ → ℕ)
    (n d k : ℕ) (j t : ℕ) (hj : j < k) (ht : t < d) :
    update_step vectors assign n d k (j * d + t) =
      (if memberCount assign n j = 0 then 0
       else memberSum vectors assign d n j t /
         (memberCount assign n j : ℚ)) := by
  have hdef : update_step vectors assign n d k =
      (List.range k).foldl (fun c i =>
        if ((List.range n).foldl (accumulate_step vectors d assign)
            (fun _ => 0, fun _ => 0)).2 i = 0 then c
        else (List.range d).foldl
          (fun c j => upd c (i * d + j) (c (i * d + j) /
            (((List.range n).foldl (accumulate_step vectors d assign)
              (fun _ => 0, fun _ => 0)).2 i : ℚ))) c)
        ((List.range n).foldl (accumulate_step vectors d assign)
          (fun _ => 0, fun _ => 0)).1 := rfl
  rw [hdef, divide_fold_apply _ d k _ j t ht]
  have hc := (accumulate_spec vectors assign d n).1 j
  have hs := (accumulate_spec vectors assign d n).2 j t ht
  rw [Nat.mul_comm d j] at hs
  rw [hc, hs]
  by_cases hmz : memberCount assign n j = 0
  · rw [if_neg (fun hcc => hcc.2 hmz), if_pos hmz,
      memberSum_of_count_zero vectors assign d n j t hmz]
  · rw [if_pos ⟨hj, hmz⟩, if_neg hmz]

/-- **C3 (amended).** In the update step of `Clustering::train`, each
centroid with at least one assigned vector is set to the arithmetic mean
of its assigned vectors (coordinate-wise: member sum divided by member
count), while each centroid with zero assigned vectors is **reset to the
zero vector** — the step zero-fills the whole centroid table before
re-accumulating, and the division loop's `continue` leaves the zero fill
in place (the prior position is not retained). -/
theorem update_step_mean_or_zero (vectors : ℕ → ℚ) (assign : ℕ → ℕ)
    (n d k : ℕ) :
    ∀ j < k, ∀ t, t < d →
      update_step vectors assign n d k (j * d + t) =
        if memberCount assign n j = 0 then 0
        else memberSum vectors assign d n j t /
          (memberCount assign n j : ℚ) :=
  fun j hj t ht => update_step_apply vectors assign n d k j t hj ht

/-- Witness for the amended C3 theorem: one vector `[3]` (`d = 1`),
one centroid (`k = 1`), everything assigned to centroid `0`, whose new
position is the mean `3 / 1`. -/
theorem update_step_mean_or_zero_witness :
    (0 < 1 ∧ 0 < 1) ∧
    update_step (fun _ => 3) (fun _ => 0) 1 1 1 (0 * 1 + 0) =
      (if memberCount (fun _ => 0) 1 0 = 0 then 0
       else memberSum (fun _ => 3) (fun _ => 0) 1 1 0 0 /
         (memberCount (fun _ => 0) 1 0 : ℚ)) :=
  ⟨⟨Nat.one_pos, Nat.one_pos⟩,
   update_step_mean_or_zero (fun _ => 3) (fun _ => 0) 1 1 1 0
     Nat.one_pos 0 Nat.one_pos⟩

/-- **C3 (counterexample).** With two identical vectors `[5]`, `[5]`
(`d = 1`, `n = 2`) and centroids `[5]` and `[3]` (`k = 2`), both vectors
are assigned to centroid `0`, so centroid `1` has zero members; one
refinement iteration of `Clustering::train` then moves centroid `1` to
`0`, not to its prior position `3` — refuting the claim that a centroid
with zero assigned vectors retains its position. -/
theorem update_step_zero_member_counterexample :
    memberCount
        (assign_of (fun _ => 5) (fun p => if p = 0 then 5 else 3) 1 2) 2 1
        = 0 ∧
    lloyd_iteration (fun _ => 5) 2 1 2 (fun p => if p = 0 then 5 else 3) 1
        = 0 ∧
    (fun p : ℕ => if p = 0 then (5:ℚ) else 3) 1 = 3 ∧ ((0:ℚ) ≠ 3) := by
  have ha : ∀ i < 2,
      assign_of (fun _ => 5) (fun p => if p = 0 then 5 else 3) 1 2 i = 0 := by
    intro i hi
    interval_cases i <;>
      norm_num [assign_of, L2_distance, List.range_succ, FLT_MAX]
  have hmc : memberCount
      (assign_of (fun _ => 5) (fun p => if p = 0 then 5 else 3) 1 2) 2 1
      = 0 := by
    unfold memberCount
    norm_num [List.range_succ, ha 0 (by norm_num), ha 1 (by norm_num)]
  refine ⟨hmc, ?_, rfl, by norm_num⟩
  show update_step (fun _ => 5)
    (assign_of (fun _ => 5) (fun p => if p = 0 then 5 else 3) 1 2)
    2 1 2 (1 * 1 + 0) = 0
  rw [update_step_apply _ _ 2 1 2 1 0 (by norm_num) (by norm_num), if_pos hmc]

/-! ## The distributed build pipeline (`src/src/core/distributed_index_ivf.cpp`) -/

/-- `IndexIVFShard` state (`src/src/core/ivf_shard.cpp`): shard id,
hosting node, and the centroid-keyed postings map
(`unordered_map<int64_t, InvertedList>`, as an association list). -/
structure IndexIVFShard where
  shard_id : ℕ
  node_id : String
  postings : List (ℤ × InvertedList)
deriving DecidableEq

/-- Shard construction in the `DistributedIndexIVF` constructor (lines
36-39): shard `i ∈ [0, shard_counts)` is created with id `i`, hosted on
`nodes_[i % node_size]`, and holds no postings. -/
def init_shards (shard_counts : ℕ) (nodes : List String) :
    List IndexIVFShard :=
  (List.range shard_counts).map (fun i =>
    ⟨i, nodes.getD (i % nodes.length) "", []⟩)

/-- One iteration of the staging loop of
`build_index_optimized_by_swe1_5` (lines 74-83): vector `i` is appended
(its input index into `centroid_to_vectors`, its id into
`centroid_to_ids`) to the bucket of its closest centroid, found by
`find_closest_optimized` over the global centroid table. -/
def stage_step (vectors centroids : ℕ → ℚ) (ids : List ℤ)
    (d num_centroids : ℕ) (buckets : List (List ℕ × List ℤ)) (i : ℕ) :
    List (List ℕ × List ℤ) :=
  let centroid := find_closest_optimized centroids
    (fun j => vectors (i * d + j)) d num_centroids
  buckets.set centroid
    ((buckets.getD centroid ([], [])).1 ++ [i],
     (buckets.getD centroid ([], [])).2 ++ [ids.getD i 0])

/-- The staging loop (lines 63-83): one bucket per centroid, every input
vector staged under exactly one centroid. -/
def stage_buckets (vectors centroids : ℕ → ℚ) (ids : List ℤ)
    (d num_centroids : ℕ) : List (List ℕ × List ℤ) :=
  (List.range ids.length).foldl
    (stage_step vectors centroids ids d num_centroids)
    (List.replicate num_centroids ([], []))

/-- One iteration of the inverted-list construction loop (lines 98-104):
append the `d` components of the staged vector at `bucket` position `i`
to `vectors` and its id to `vector_ids`. -/
def inv_append_step (vectors : ℕ → ℚ) (d : ℕ) (bucket : List ℕ × List ℤ)
    (inv : InvertedList) (i : ℕ) : InvertedList :=
  ⟨inv.vector_ids ++ [bucket.2.getD i 0],
   inv.vectors ++ (List.range d).map
     (fun j => vectors (bucket.1.getD i 0 * d + j))⟩

/-- Construction of the `InvertedList` routed for one centroid (lines
91-104): for each staged input index, append its id to `vector_ids` and
its `d` vector components to `vectors`. -/
def make_inv_list (vectors : ℕ → ℚ) (d : ℕ) (bucket : List ℕ × List ℤ) :
    InvertedList :=
  (List.range bucket.1.length).foldl (inv_append_step vectors d bucket)
    ⟨[], []⟩

/-- One iteration of the routing loop (lines 86-107): an empty bucket is
skipped (`continue`); a non-empty bucket for centroid `c` becomes an
`InvertedList` added via `add_posting` to shard `c % shard_counts`. -/
def route_step (vectors : ℕ → ℚ) (buckets : List (List ℕ × List ℤ))
    (d shard_counts : ℕ) (shards : List IndexIVFShard) (centroid : ℕ) :
    List IndexIVFShard :=
  if (buckets.getD centroid ([], [])).1.isEmpty then shards
  else
    shards.set (centroid % shard_counts)
      (let sh := shards.getD (centroid % shard_counts) ⟨0, "", []⟩
       ⟨sh.shard_id, sh.node_id,
        add_posting sh.postings (centroid : ℤ)
          (make_inv_list vectors d (buckets.getD centroid ([], [])))⟩)

/-- The routing loop over all centroids. -/
def route_postings (vectors : ℕ → ℚ) (buckets : List (List ℕ × List ℤ))
    (d shard_counts : ℕ) (shards : List IndexIVFShard) :
    List IndexIVFShard :=
  (List.range buckets.length).foldl
    (route_step vectors buckets d shard_counts) shards

/-- Steps 3-5 of `build_index_optimized_by_swe1_5` once the centroid
table is trained: stage every vector under its closest centroid, then
route every non-empty bucket to its owning shard. -/
def build_stage_and_route (vectors centroids : ℕ → ℚ) (ids : List ℤ)
    (d num_centroids shard_counts : ℕ) (shards : List IndexIVFShard) :
    List IndexIVFShard :=
  route_postings vectors
    (stage_buckets vectors centroids ids d num_centroids) d shard_counts
    shards

/-- Total number of posting ids stored in a postings map. -/
def postingsIdCount (postings : List (ℤ × InvertedList)) : ℕ :=
  (postings.map (fun kv => kv.2.vector_ids.length)).sum

/-- Total number of posting ids stored in a shard. -/
def shardIdCount (sh : IndexIVFShard) : ℕ :=
  postingsIdCount sh.postings

/-- Total number of posting ids stored across all shards. -/
def totalIdCount (shards : List IndexIVFShard) : ℕ :=
  (shards.map shardIdCount).sum

/-! ### Helper lemmas about list writes and sums -/

lemma getD_set_self {α : Type} (dflt x : α) :
    ∀ (l : List α) (i : ℕ), i < l.length → (l.set i x).getD i dflt = x := by
  intro l
  induction l with
  | nil =>
    intro i hi
    exact absurd hi (by simp)
  | cons a as ih =>
    intro i hi
    cases i with
    | zero => rfl
    | succ i =>
      rw [List.set_cons_succ, List.getD_cons_succ]
      exact ih i (by simpa using hi)

lemma getD_set_ne {α : Type} (dflt x : α) :
    ∀ (l : List α) (i j : ℕ), j ≠ i →
      (l.set i x).getD j dflt = l.getD j dflt := by
  intro l
  induction l with
  | nil =>
    intro i j _
    rfl
  | cons a as ih =>
    intro i j hij
    cases i with
    | zero =>
      cases j with
      | zero => exact absurd rfl hij
      | succ j => rw [List.set_cons_zero, List.getD_cons_succ, List.getD_cons_succ]
    | succ i =>
      cases j with
      | zero => rw [List.set_cons_succ, List.getD_cons_zero, List.getD_cons_zero]
      | succ j =>
        rw [List.set_cons_succ, List.getD_cons_succ, List.getD_cons_succ]
        exact ih i j (fun h => hij (by omega))

/-- Setting entry `i` to a value whose weight is the old weight plus `c`
increases a mapped sum by `c`. -/
lemma sum_map_set_add {α : Type} (f : α → ℕ) (dflt : α) :
    ∀ (l : List α) (i : ℕ) (x : α) (c : ℕ), i < l.length →
      f x = f (l.getD i dflt) + c →
      ((l.set i x).map f).sum = (l.map f).sum + c := by
  intro l
  induction l with
  | nil =>
    intro i x c hi _
    exact absurd hi (by simp)
  | cons a as ih =>
    intro i x c hi hfx
    cases i with
    | zero =>
      rw [List.getD_cons_zero] at hfx
      rw [List.set_cons_zero, List.map_cons, List.map_cons, List.sum_cons,
        List.sum_cons, hfx]
      omega
    | succ i =>
      rw [List.getD_cons_succ] at hfx
      rw [List.set_cons_succ, List.map_cons, List.map_cons, List.sum_cons,
        List.sum_cons, ih i x c (by simpa using hi) hfx]
      omega

lemma map_getD_range {α : Type} (dflt : α) :
    ∀ (l : List α), (List.range l.length).map (fun i => l.getD i dflt) = l := by
  intro l
  induction l with
  | nil => rfl
  | cons a as ih =>
    rw [List.length_cons, List.range_succ_eq_map, List.map_cons,
      List.getD_cons_zero, List.map_map]
    congr 1

/-! ### Counting lemmas for the build pipeline -/

lemma postingsIdCount_extend_entry (c : ℤ) (p : InvertedList) :
    ∀ postings : List (ℤ × InvertedList), (List.lookup c postings).isSome →
      postingsIdCount (extend_entry c p postings) =
        postingsIdCount postings + p.vector_ids.length := by
  intro postings
  induction postings with
  | nil =>
    intro h
    simp [List.lookup] at h
  | cons kv rest ih =>
    intro h
    unfold extend_entry
    by_cases hk : kv.1 = c
    · rw [if_pos hk]
      simp only [postingsIdCount, List.map_cons, List.sum_cons,
        List.length_append]
      omega
    · rw [if_neg hk]
      have h' : (List.lookup c rest).isSome := by
        rw [List.lookup] at h
        rwa [show (c == kv.1) = false from
          beq_eq_false_iff_ne.mpr (fun hh => hk hh.symm)] at h
      have hr := ih h'
      simp only [postingsIdCount, List.map_cons, List.sum_cons] at *
      omega

lemma lookup_append_self (c : ℤ) (e : InvertedList) :
    ∀ postings : List (ℤ × InvertedList),
      (List.lookup c (postings ++ [(c, e)])).isSome := by
  intro postings
  induction postings with
  | nil => simp [List.lookup]
  | cons kv rest ih =>
    rw [List.cons_append, List.lookup]
    by_cases hk : kv.1 = c
    · rw [show (c == kv.1) = true from beq_iff_eq.mpr hk.symm]
      rfl
    · rw [show (c == kv.1) = false from
        beq_eq_false_iff_ne.mpr (fun hh => hk hh.symm)]
      exact ih

lemma postingsIdCount_append (l1 l2 : List (ℤ × InvertedList)) :
    postingsIdCount (l1 ++ l2) = postingsIdCount l1 + postingsIdCount l2 := by
  simp [postingsIdCount]

/-- `add_posting` grows the stored id count of a postings map by exactly
the id count of the supplied list. -/
lemma postingsIdCount_add_posting (postings : List (ℤ × InvertedList))
    (c : ℤ) (p : InvertedList) :
    postingsIdCount (add_posting postings c p) =
      postingsIdCount postings + p.vector_ids.length := by
  unfold add_posting
  by_cases h : (List.lookup c postings).isSome
  · rw [if_pos h, postingsIdCount_extend_entry c p postings h]
  · rw [if_neg h,
      postingsIdCount_extend_entry c p _ (lookup_append_self c ⟨[], []⟩ postings),
      postingsIdCount_append]
    simp [postingsIdCount]

/-- `extend_entry` never introduces a new key. -/
lemma extend_entry_keys (c : ℤ) (p : InvertedList) :
    ∀ (postings : List (ℤ × InvertedList)) (kv : ℤ × InvertedList),
      kv ∈ extend_entry c p postings → kv.1 ∈ postings.map Prod.fst := by
  intro postings
  induction postings with
  | nil =>
    intro kv h
    simp [extend_entry] at h
  | cons kv0 rest ih =>
    intro kv h
    unfold extend_entry at h
    by_cases hk : kv0.1 = c
    · rw [if_pos hk] at h
      rcases List.mem_cons.mp h with h | h
      · rw [List.map_cons, h]
        exact List.mem_cons_self _ _
      · exact List.mem_cons_of_mem _ (List.mem_map_of_mem Prod.fst h)
    · rw [if_neg hk] at h
      rcases List.mem_cons.mp h with h | h
      · rw [List.map_cons, h]
        exact List.mem_cons_self _ _
      · exact List.mem_cons_of_mem _ (ih kv h)

/-- Every key present after `add_posting postings c p` was present before
or equals `c`. -/
lemma add_posting_keys (postings : List (ℤ × InvertedList)) (c : ℤ)
    (p : InvertedList) :
    ∀ kv ∈ add_posting postings c p,
      kv.1 ∈ postings.map Prod.fst ∨ kv.1 = c := by
  intro kv h
  unfold add_posting at h
  by_cases hl : (List.lookup c postings).isSome
  · rw [if_pos hl] at h
    exact Or.inl (extend_entry_keys c p postings kv h)
  · rw [if_neg hl] at h
    have hmem := extend_entry_keys c p _ kv h
    rw [List.map_append] at hmem
    rcases List.mem_append.mp hmem with h' | h'
    · exact Or.inl h'
    · right
      simpa using h'

/-- The routed inverted list carries exactly one id per staged vector. -/
lemma make_inv_list_ids_length (vectors : ℕ → ℚ) (d : ℕ)
    (bucket : List ℕ × List ℤ) :
    (make_inv_list vectors d bucket).vector_ids.length = bucket.1.length := by
  suffices h : ∀ (m : ℕ) (inv : InvertedList),
      (((List.range m).foldl (inv_append_step vectors d bucket) inv).vector_ids).length
        = inv.vector_ids.length + m by
    have := h bucket.1.length ⟨[], []⟩
    simpa [make_inv_list] using this
  intro m
  induction m with
  | zero =>
    intro inv
    simp
  | succ m ih =>
    intro inv
    rw [List.range_succ, List.foldl_append, List.foldl_cons, List.foldl_nil]
    show ((_ : InvertedList).vector_ids ++ _).length = _
    rw [List.length_append, ih]
    simp only [List.length_singleton]
    omega

lemma stage_step_eq (vectors centroids : ℕ → ℚ) (ids : List ℤ)
    (d nc : ℕ) (buckets : List (List ℕ × List ℤ)) (i : ℕ) :
    stage_step vectors centroids ids d nc buckets i =
      buckets.set
        (find_closest_optimized centroids (fun j => vectors (i * d + j)) d nc)
        ((buckets.getD (find_closest_optimized centroids
            (fun j => vectors (i * d + j)) d nc) ([], [])).1 ++ [i],
         (buckets.getD (find_closest_optimized centroids
            (fun j => vectors (i * d + j)) d nc) ([], [])).2 ++
           [ids.getD i 0]) := rfl

lemma stage_fold_length (vectors centroids : ℕ → ℚ) (ids : List ℤ)
    (d nc : ℕ) :
    ∀ (l : List ℕ) (acc : List (List ℕ × List ℤ)),
      (l.foldl (stage_step vectors centroids ids d nc) acc).length =
        acc.length := by
  intro l
  induction l with
  | nil =>
    intro acc
    rfl
  | cons i l ih =>
    intro acc
    rw [List.foldl_cons, ih, stage_step_eq, List.length_set]

/-- Every staging step files exactly one vector, so after staging the
first `m` vectors the buckets hold `m` entries in total. -/
lemma stage_fold_sum (vectors centroids : ℕ → ℚ) (ids : List ℤ)
    (d nc : ℕ) (hnc : 0 < nc) :
    ∀ (m : ℕ),
      (((List.range m).foldl (stage_step vectors centroids ids d nc)
        (List.replicate nc ([], []))).map (fun b => b.1.length)).sum = m := by
  intro m
  induction m with
  | zero => simp
  | succ m ih =>
    rw [List.range_succ, List.foldl_append, List.foldl_cons, List.foldl_nil,
      stage_step_eq]
    have hct : find_closest_optimized centroids
        (fun j => vectors (m * d + j)) d nc <
        ((List.range m).foldl (stage_step vectors centroids ids d nc)
          (List.replicate nc ([], []))).length := by
      rw [stage_fold_length, List.length_replicate]
      exact find_closest_optimized_lt _ _ _ _ hnc
    rw [sum_map_set_add (fun b => b.1.length) ([], []) _ _ _ 1 hct
      (by simp), ih]

/-- The staged buckets hold every input vector exactly once. -/
lemma stage_buckets_sum (vectors centroids : ℕ → ℚ) (ids : List ℤ)
    (d nc : ℕ) (hnc : 0 < nc) :
    ((stage_buckets vectors centroids ids d nc).map
      (fun b => b.1.length)).sum = ids.length :=
  stage_fold_sum vectors centroids ids d nc hnc ids.length

lemma route_step_empty (vectors : ℕ → ℚ) (buckets : List (List ℕ × List ℤ))
    (d sc : ℕ) (shards : List IndexIVFShard) (c : ℕ)
    (he : (buckets.getD c ([], [])).1.isEmpty) :
    route_step vectors buckets d sc shards c = shards := by
  unfold route_step
  rw [if_pos he]

lemma route_step_nonempty (vectors : ℕ → ℚ)
    (buckets : List (List ℕ × List ℤ)) (d sc : ℕ)
    (shards : List IndexIVFShard) (c : ℕ)
    (he : ¬ (buckets.getD c ([], [])).1.isEmpty) :
    route_step vectors buckets d sc shards c =
      shards.set (c % sc)
        ⟨(shards.getD (c % sc) ⟨0, "", []⟩).shard_id,
         (shards.getD (c % sc) ⟨0, "", []⟩).node_id,
         add_posting (shards.getD (c % sc) ⟨0, "", []⟩).postings (c : ℤ)
           (make_inv_list vectors d (buckets.getD c ([], [])))⟩ := by
  unfold route_step
  rw [if_neg he]

lemma route_fold_length (vectors : ℕ → ℚ)
    (buckets : List (List ℕ × List ℤ)) (d sc : ℕ) :
    ∀ (l : List ℕ) (shards : List IndexIVFShard),
      (l.foldl (route_step vectors buckets d sc) shards).length =
        shards.length := by
  intro l
  induction l with
  | nil =>
    intro shards
    rfl
  | cons c l ih =>
    intro shards
    rw [List.foldl_cons, ih]
    by_cases he : (buckets.getD c ([], [])).1.isEmpty
    · rw [route_step_empty _ _ _ _ _ _ he]
    · rw [route_step_nonempty _ _ _ _ _ _ he, List.length_set]

/-- Routing the first `m` buckets adds exactly their staged sizes to the
total stored id count. -/
lemma route_fold_total (vectors : ℕ → ℚ)
    (buckets : List (List ℕ × List ℤ)) (d sc : ℕ) (hsc : 0 < sc) :
    ∀ (m : ℕ) (shards : List IndexIVFShard), shards.length = sc →
      totalIdCount ((List.range m).foldl
        (route_step vectors buckets d sc) shards) =
        totalIdCount shards +
          ((List.range m).map
            (fun c => (buckets.getD c ([], [])).1.length)).sum := by
  intro m
  induction m with
  | zero =>
    intro shards _
    simp
  | succ m ih =>
    intro shards hs
    rw [List.range_succ, List.foldl_append, List.foldl_cons, List.foldl_nil,
      List.map_append, List.sum_append, List.map_cons, List.map_nil,
      List.sum_cons, List.sum_nil]
    by_cases he : (buckets.getD m ([], [])).1.isEmpty
    · rw [route_step_empty _ _ _ _ _ _ he, ih shards hs,
        List.isEmpty_iff.mp he]
      simp
    · rw [route_step_nonempty _ _ _ _ _ _ he]
      have hlt : m % sc < ((List.range m).foldl
          (route_step vectors buckets d sc) shards).length := by
        rw [route_fold_length, hs]
        exact Nat.mod_lt m hsc
      have hval : shardIdCount
          ⟨(((List.range m).foldl (route_step vectors buckets d sc)
              shards).getD (m % sc) ⟨0, "", []⟩).shard_id,
           (((List.range m).foldl (route_step vectors buckets d sc)
              shards).getD (m % sc) ⟨0, "", []⟩).node_id,
           add_posting (((List.range m).foldl (route_step vectors buckets d sc)
              shards).getD (m % sc) ⟨0, "", []⟩).postings (m : ℤ)
             (make_inv_list vectors d (buckets.getD m ([], [])))⟩ =
          shardIdCount (((List.range m).foldl (route_step vectors buckets d sc)
            shards).getD (m % sc) ⟨0, "", []⟩) +
            (buckets.getD m ([], [])).1.length := by
        unfold shardIdCount
        rw [postingsIdCount_add_posting, make_inv_list_ids_length]
      unfold totalIdCount
      rw [sum_map_set_add shardIdCount ⟨0, "", []⟩ _ _ _ _ hlt hval]
      have hih := ih shards hs
      unfold totalIdCount at hih
      omega

/-- **C5.** For any trained centroid table with `num_centroids ≥ 1` and
any `shard_count ≥ 1`, staging every input vector under its closest
centroid and routing every non-empty bucket to its shard conserves the
input: the total number of posting ids stored across all shards equals
`ids.len()` — every input vector is staged under exactly one centroid and
every non-empty bucket is routed. -/
theorem build_conserves_vector_count (vectors centroids : ℕ → ℚ)
    (ids : List ℤ) (d num_centroids shard_counts : ℕ) (nodes : List String)
    (hnc : 0 < num_centroids) (hsc : 0 < shard_counts) :
    totalIdCount (build_stage_and_route vectors centroids ids d
      num_centroids shard_counts (init_shards shard_counts nodes)) =
      ids.length := by
  unfold build_stage_and_route route_postings
  rw [route_fold_total vectors _ d shard_counts hsc _ _
    (by unfold init_shards; simp)]
  have h0 : totalIdCount (init_shards shard_counts nodes) = 0 := by
    unfold totalIdCount init_shards shardIdCount postingsIdCount
    apply List.sum_eq_zero
    intro x hx
    obtain ⟨sh, hsh, rfl⟩ := List.mem_map.mp hx
    obtain ⟨j, _, rfl⟩ := List.mem_map.mp hsh
    rfl
  rw [h0, show (fun c => ((stage_buckets vectors centroids ids d
      num_centroids).getD c ([], [])).1.length) =
      (fun b => b.1.length) ∘ (fun c => (stage_buckets vectors centroids ids d
        num_centroids).getD c ([], [])) from rfl,
    ← List.map_map, map_getD_range,
    stage_buckets_sum vectors centroids ids d num_centroids hnc,
    Nat.zero_add]

/-- Witness for C5: one centroid, one shard on one node, a single `d = 1`
vector `[0]` with id `5`; one id is stored in total. -/
theorem build_conserves_vector_count_witness :
    (0 < 1 ∧ 0 < 1) ∧
    totalIdCount (build_stage_and_route (fun _ => 0) (fun _ => 0) [(5:ℤ)] 1
      1 1 (init_shards 1 ["n"])) = [(5:ℤ)].length :=
  ⟨⟨Nat.one_pos, Nat.one_pos⟩,
   build_conserves_vector_count (fun _ => 0) (fun _ => 0) [(5:ℤ)] 1 1 1
     ["n"] Nat.one_pos Nat.one_pos⟩

lemma init_shards_getD (sc : ℕ) (nodes : List String) (i : ℕ)
    (hi : i < sc) :
    (init_shards sc nodes).getD i ⟨0, "", []⟩ =
      ⟨i, nodes.getD (i % nodes.length) "", []⟩ := by
  unfold init_shards
  rw [List.getD_eq_getElem _ _ (by simpa using hi)]
  simp

/-- Routing preserves the key discipline: if every posting key in shard
slot `s` is a centroid congruent to `s` modulo `shard_counts`, the same
holds after routing any prefix of the buckets. -/
lemma route_fold_keys (vectors : ℕ → ℚ)
    (buckets : List (List ℕ × List ℤ)) (d sc : ℕ) (hsc : 0 < sc) :
    ∀ (m : ℕ) (shards : List IndexIVFShard), shards.length = sc →
      (∀ s < sc, ∀ kv ∈ (shards.getD s ⟨0, "", []⟩).postings,
        ∃ c : ℕ, kv.1 = (c : ℤ) ∧ c % sc = s) →
      ∀ s < sc, ∀ kv ∈ (((List.range m).foldl
          (route_step vectors buckets d sc) shards).getD s
          ⟨0, "", []⟩).postings,
        ∃ c : ℕ, kv.1 = (c : ℤ) ∧ c % sc = s := by
  intro m
  induction m with
  | zero =>
    intro shards _ hinv
    simpa using hinv
  | succ m ih =>
    intro shards hs hinv s hsx kv hkv
    rw [List.range_succ, List.foldl_append, List.foldl_cons,
      List.foldl_nil] at hkv
    by_cases he : (buckets.getD m ([], [])).1.isEmpty
    · rw [route_step_empty _ _ _ _ _ _ he] at hkv
      exact ih shards hs hinv s hsx kv hkv
    · rw [route_step_nonempty _ _ _ _ _ _ he] at hkv
      have hlt : m % sc < ((List.range m).foldl
          (route_step vectors buckets d sc) shards).length := by
        rw [route_fold_length, hs]
        exact Nat.mod_lt m hsc
      by_cases hsm : s = m % sc
      · subst hsm
        rw [getD_set_self _ _ _ _ hlt] at hkv
        rcases add_posting_keys _ _ _ kv hkv with hold | hc
        · obtain ⟨kv', hkv', heq⟩ := List.mem_map.mp hold
          obtain ⟨c, hc1, hc2⟩ := ih shards hs hinv (m % sc)
            (Nat.mod_lt m hsc) kv' hkv'
          exact ⟨c, by rw [← heq]; exact hc1, hc2⟩
        · exact ⟨m, hc, rfl⟩
      · rw [getD_set_ne _ _ _ _ _ hsm] at hkv
        exact ih shards hs hinv s hsx kv hkv

/-- **C6.** With `shard_count ≥ 1` shards over a non-empty node list,
shard `i ∈ [0, shard_count)` is created with id `i` and hosted on
`nodes[i mod nodes.len()]`; and after staging and routing any build input
over any trained centroid table, every posting key stored in shard slot
`s` is a centroid `c` with `c mod shard_count = s`. -/
theorem shard_hosting_and_centroid_placement (shard_counts : ℕ)
    (nodes : List String) (vectors centroids : ℕ → ℚ) (ids : List ℤ)
    (d num_centroids : ℕ) (hsc : 0 < shard_counts) (hnodes : nodes ≠ []) :
    (∀ i < shard_counts,
      (init_shards shard_counts nodes).getD i ⟨0, "", []⟩ =
        ⟨i, nodes.getD (i % nodes.length) "", []⟩) ∧
    (∀ s < shard_counts,
      ∀ kv ∈ ((build_stage_and_route vectors centroids ids d num_centroids
          shard_counts (init_shards shard_counts nodes)).getD s
          ⟨0, "", []⟩).postings,
        ∃ c : ℕ, kv.1 = (c : ℤ) ∧ c % shard_counts = s) := by
  constructor
  · intro i hi
    exact init_shards_getD shard_counts nodes i hi
  · have hinv0 : ∀ s < shard_counts,
        ∀ kv ∈ ((init_shards shard_counts nodes).getD s ⟨0, "", []⟩).postings,
        ∃ c : ℕ, kv.1 = (c : ℤ) ∧ c % shard_counts = s := by
      intro s hsx kv hkv
      rw [init_shards_getD shard_counts nodes s hsx] at hkv
      simp at hkv
    unfold build_stage_and_route route_postings
    exact route_fold_keys vectors _ d shard_counts hsc _
      (init_shards shard_counts nodes) (by unfold init_shards; simp) hinv0

/-- Witness for C6: two shards over one node, a single `d = 1` vector
with id `5` and one centroid. -/
theorem shard_hosting_and_centroid_placement_witness :
    (0 < 2 ∧ (["n"] : List String) ≠ []) ∧
    ((∀ i < 2, (init_shards 2 ["n"]).getD i ⟨0, "", []⟩ =
        ⟨i, (["n"] : List String).getD (i % (["n"] : List String).length) "",
         []⟩) ∧
     (∀ s < 2,
      ∀ kv ∈ ((build_stage_and_route (fun _ => 0) (fun _ => 0) [(5:ℤ)] 1 1 2
          (init_shards 2 ["n"])).getD s ⟨0, "", []⟩).postings,
        ∃ c : ℕ, kv.1 = (c : ℤ) ∧ c % 2 = s)) :=
  ⟨⟨by decide, by simp⟩,
   shard_hosting_and_centroid_placement 2 ["n"] (fun _ => 0) (fun _ => 0)
     [(5:ℤ)] 1 1 (by decide) (by simp)⟩
